import Mathlib

/-!
Shallow embedding of the grep-like search tool in src/main.rs.

Strings are modelled as lists of characters. Standard output is modelled by
returning the emitted items; standard error and the exit code are recorded in
RunResult. Rust's to_lowercase is modelled as per-character ASCII lowercasing.
-/

abbrev Str := List Char

def str (s : String) : Str := s.data

/-- Per-character lowercasing, the model of to_lowercase. -/
def lowerChar (c : Char) : Char :=
  if 'A' ≤ c ∧ c ≤ 'Z' then Char.ofNat (c.toNat + 32) else c

def lowerS (s : Str) : Str := s.map lowerChar

/-- Tests whether p occurs at the start of s. -/
def isPre : Str → Str → Bool
  | [], _ => true
  | _ :: _, [] => false
  | a :: as, b :: bs => a = b && isPre as bs

/-- Rust str::contains with a string needle: substring containment. -/
def containsSub : Str → Str → Bool
  | [], p => isPre p []
  | c :: cs, p => isPre p (c :: cs) || containsSub cs p

/-- The parsed command configuration (struct Config in main.rs). -/
structure Config where
  query_str : Str
  target_files : List Str
  case_insensitive : Bool
  print_line_numbers : Bool
  invert_match : Bool
  recursive_search : Bool
  print_filenames : Bool
  colored_output : Bool
  deriving DecidableEq

/-- How Config::new ends without a configuration: a help request
(process::exit 0 inside the flag loop) or an argument error with its message. -/
inductive ParseExit where
  | helpRequested : ParseExit
  | parseError : Str → ParseExit
  deriving DecidableEq

/-- The flag loop of Config::new over args[2..]. -/
def parseFlags : Config → List Str → Except ParseExit Config
  | cfg, [] => .ok cfg
  | cfg, a :: rest =>
    if a = str "-i" then parseFlags { cfg with case_insensitive := true } rest
    else if a = str "-n" then parseFlags { cfg with print_line_numbers := true } rest
    else if a = str "-v" then parseFlags { cfg with invert_match := true } rest
    else if a = str "-r" then parseFlags { cfg with recursive_search := true } rest
    else if a = str "-f" then parseFlags { cfg with print_filenames := true } rest
    else if a = str "-c" then parseFlags { cfg with colored_output := true } rest
    else if a = str "-h" ∨ a = str "--help" then .error .helpRequested
    else parseFlags { cfg with target_files := cfg.target_files ++ [a] } rest

/-- Config::new in main.rs: args includes the program name at position 0. -/
def Config.new (args : List Str) : Except ParseExit Config :=
  if args.length < 3 then .error (.parseError (str "not enough arguments"))
  else
    match parseFlags ⟨args.getD 1 [], [], false, false, false, false, false, false⟩ (args.drop 2) with
    | .error e => .error e
    | .ok cfg =>
      if cfg.target_files = [] then .error (.parseError (str "No files provided."))
      else .ok cfg

/-- The ANSI escape character. -/
def esc : Char := '\x1b'

/-- Opening marker produced by red() of the colored crate: ESC [ 3 1 m. -/
def M1 : Str := [esc, '[', '3', '1', 'm']

/-- Closing marker produced by red() of the colored crate: ESC [ 0 m. -/
def M2 : Str := [esc, '[', '0', 'm']

/-- Fuelled core of Rust str::replace for a non-empty pattern: leftmost
non-overlapping occurrences of pat are replaced by rep. -/
def replaceGo (pat rep : Str) : Nat → Str → Str
  | _, [] => []
  | 0, _ :: _ => []
  | fuel + 1, c :: cs =>
    if isPre pat (c :: cs) then rep ++ replaceGo pat rep fuel (cs.drop (pat.length - 1))
    else c :: replaceGo pat rep fuel cs

/-- rep interleaved after every character: the tail of a replace whose pattern
is empty, which matches at every character boundary. -/
def interMark (rep : Str) : Str → Str
  | [] => []
  | c :: cs => c :: (rep ++ interMark rep cs)

/-- Rust str::replace; an empty pattern matches at every character boundary. -/
def rustReplace (s pat rep : Str) : Str :=
  if pat = [] then rep ++ interMark rep s else replaceGo pat rep s.length s

/-- Fuelled decomposition of a line into unmatched single characters and
literal matches of pat, following the same scan as replaceGo. -/
def hlSegsGo (pat : Str) : Nat → Str → List (Bool × Str)
  | _, [] => []
  | 0, _ :: _ => []
  | fuel + 1, c :: cs =>
    if isPre pat (c :: cs) then (true, pat) :: hlSegsGo pat fuel (cs.drop (pat.length - 1))
    else (false, [c]) :: hlSegsGo pat fuel cs

/-- Per-boundary empty matches: the segments of an empty pattern. -/
def interSegs : Str → List (Bool × Str)
  | [] => []
  | c :: cs => (false, [c]) :: (true, []) :: interSegs cs

/-- Case-sensitive highlight decomposition of a line for query q. -/
def hlSegsCS (q s : Str) : List (Bool × Str) :=
  if q = [] then (true, []) :: interSegs s else hlSegsGo q s.length s

/-- Fuelled case-insensitive scan: a span matches when its lowercasing starts
with the lowercased query; the emitted span keeps its original characters. -/
def hlSegsCIGo (q : Str) : Nat → Str → List (Bool × Str)
  | _, [] => []
  | 0, _ :: _ => []
  | fuel + 1, c :: cs =>
    if isPre (lowerS q) (lowerS (c :: cs)) then
      (true, (c :: cs).take q.length) :: hlSegsCIGo q fuel (cs.drop (q.length - 1))
    else (false, [c]) :: hlSegsCIGo q fuel cs

/-- Modelled from the spec: the replace_all of the regex crate with pattern
"(?i)" ++ escaped query — a case-insensitive search for the literal query; an
empty query matches at every character boundary. -/
def hlSegsCI (q s : Str) : List (Bool × Str) :=
  if q = [] then (true, []) :: interSegs s else hlSegsCIGo q s.length s

/-- Renders segments, wrapping each matched span in the highlight markers. -/
def flattenHl : List (Bool × Str) → Str
  | [] => []
  | (b, t) :: rest => (if b then M1 ++ t ++ M2 else t) ++ flattenHl rest

/-- Concatenation of the segment texts, with no markers. -/
def flattenPlain : List (Bool × Str) → Str
  | [] => []
  | (_, t) :: rest => t ++ flattenPlain rest

/-- Removes every highlight marker in one left-to-right pass. -/
def stripMarkers : Str → Str
  | [] => []
  | '\x1b' :: '[' :: '3' :: '1' :: 'm' :: rest => stripMarkers rest
  | '\x1b' :: '[' :: '0' :: 'm' :: rest => stripMarkers rest
  | c :: cs => c :: stripMarkers cs

/-- The characters regex::escape treats as metacharacters. -/
def metaChar (c : Char) : Bool :=
  c = '\\' || c = '.' || c = '+' || c = '*' || c = '?' || c = '(' || c = ')' ||
  c = '|' || c = '[' || c = ']' || c = '\x7b' || c = '\x7d' || c = '^' || c = '$' ||
  c = '#' || c = '&' || c = '-' || c = '~'

/-- Modelled from the spec: regex::escape, prefixing every metacharacter with
a backslash so the query is treated as literal text. -/
def rustRegexEscape : Str → Str
  | [] => []
  | c :: cs => (if metaChar c then ['\\', c] else [c]) ++ rustRegexEscape cs

/-- Modelled from the spec: compilation of the regex fragment print_match
builds — a sequence of literal items in which every metacharacter is escaped.
Returns the literal character sequence the pattern matches; none models a
compilation error. -/
def parseLitPat : Str → Option Str
  | [] => some []
  | c :: rest =>
    if c = '\\' then
      match rest with
      | [] => none
      | d :: rest2 => (parseLitPat rest2).map (fun l => d :: l)
    else if metaChar c then none
    else (parseLitPat rest).map (fun l => c :: l)

/-- Modelled from the spec: Regex::new on the patterns formatColored builds;
it requires the "(?i)" flag prefix followed by a literal remainder. -/
def regexNew (pat : Str) : Option Str :=
  if isPre (str "(?i)") pat then parseLitPat (pat.drop 4) else none

/-- The formatted_line computation of print_match (optional highlighting);
none models the unwrap panic when the regex pattern fails to compile. -/
def formatColored (cfg : Config) (line : Str) : Option Str :=
  if cfg.colored_output then
    if cfg.case_insensitive then
      (regexNew (str "(?i)" ++ rustRegexEscape cfg.query_str)).map
        (fun lit => flattenHl (hlSegsCI lit line))
    else some (rustReplace line cfg.query_str (M1 ++ cfg.query_str ++ M2))
  else some line

def natStr (n : Nat) : Str := (Nat.repr n).data

/-- print_match in main.rs: the formatted line with its filename and
line-number prefixing; the printed line number is line_idx + 1. -/
def print_match (line_idx : Nat) (line : Str) (filename : Str) (cfg : Config) : Option Str :=
  (formatColored cfg line).map (fun formatted =>
    if cfg.print_filenames && cfg.print_line_numbers then
      filename ++ str ": " ++ natStr (line_idx + 1) ++ str ": " ++ formatted
    else if cfg.print_filenames then filename ++ str ": " ++ formatted
    else if cfg.print_line_numbers then natStr (line_idx + 1) ++ str ": " ++ formatted
    else formatted)

/-- The match decision of search_in_file for one line, given the query that
execute prepared. -/
def lineMatched (cfg : Config) (q line : Str) : Bool :=
  if cfg.case_insensitive then containsSub (lowerS line) q else containsSub line q

/-- should_print in search_in_file. -/
def should_print (cfg : Config) (matched : Bool) : Bool :=
  if cfg.invert_match then !matched else matched

/-- The line loop of search_in_file: emits the (index, line) pairs handed to
print_match and stops at the first line read/decode error. -/
def scanLines (cfg : Config) (q : Str) : Nat → List (Except Str Str) → List (Nat × Str) × Option Str
  | _, [] => ([], none)
  | _, .error e :: _ => ([], some e)
  | i, .ok l :: rest =>
    ((if should_print cfg (lineMatched cfg q l) then [(i, l)] else [])
       ++ (scanLines cfg q (i + 1) rest).1,
     (scanLines cfg q (i + 1) rest).2)

/-- Read model of the filesystem: opening a file either fails or yields the
per-line read results, each line possibly a decode error. -/
abbrev Fs := Str → Except Str (List (Except Str Str))

/-- search_in_file in main.rs: open then scan; the result is the emitted
Matched Line tuples (filename, index, line) and the first error, if any. -/
def search_in_file (fs : Fs) (filename q : Str) (cfg : Config) : List (Str × Nat × Str) × Option Str :=
  match fs filename with
  | .error e => ([], some e)
  | .ok lineResults =>
    ((scanLines cfg q 0 lineResults).1.map (fun p => (filename, p.1, p.2)),
     (scanLines cfg q 0 lineResults).2)

/-- The zero-based indices search_in_file emits for a fully readable file. -/
def emittedIdxs (cfg : Config) (q : Str) (lines : List Str) : List Nat :=
  ((scanLines cfg q 0 (lines.map Except.ok)).1).map (fun p => p.1)

/-- What a run over a target list produces: the emitted tuples, the files
actually opened, and the error that stopped the run, if any. -/
structure RunOut where
  emitted : List (Str × Nat × Str)
  opened : List Str
  err : Option Str
  deriving DecidableEq

/-- The target loop of execute: early return on the first failing file. -/
def runFiles (fs : Fs) (q : Str) (cfg : Config) : List Str → RunOut
  | [] => ⟨[], [], none⟩
  | f :: rest =>
    match (search_in_file fs f q cfg).2 with
    | some e => ⟨(search_in_file fs f q cfg).1, [f], some e⟩
    | none =>
      ⟨(search_in_file fs f q cfg).1 ++ (runFiles fs q cfg rest).emitted,
       f :: (runFiles fs q cfg rest).opened,
       (runFiles fs q cfg rest).err⟩

inductive FKind where
  | file : FKind
  | dir : FKind
  | symlink : FKind
  | special : FKind
  deriving DecidableEq

/-- A filesystem subtree for traversal: path, file type, whether its metadata
is readable, and children (meaningful for directories). -/
inductive FsTree where
  | node : Str → FKind → Bool → List FsTree → FsTree

mutual
/-- Modelled from the spec: the walkdir iterator. Depth-first; each visited
entry yields Ok (path, type), or Err when its metadata cannot be read, in
which case a directory's contents are not visited. -/
def walkEntries : FsTree → List (Except Unit (Str × FKind))
  | .node p k ok cs =>
    if ok then .ok (p, k) :: (if k = .dir then walkForest cs else []) else [.error ()]
def walkForest : List FsTree → List (Except Unit (Str × FKind))
  | [] => []
  | t :: ts => walkEntries t ++ walkForest ts
end

/-- collect_files_recursively in main.rs: per target, keep the Ok entries
whose file type is a regular file, concatenating across targets. -/
def collect_files_recursively (dirs : Str → FsTree) : List Str → List Str
  | [] => []
  | p :: ps =>
    ((walkEntries (dirs p)).filterMap Except.toOption).filterMap
      (fun e => if e.2 = .file then some e.1 else none)
      ++ collect_files_recursively dirs ps

mutual
/-- The spec's description of recursive collection for one target: the
regular-file descendants in depth-first order, silently skipping entries
whose metadata cannot be read. -/
def specFiles : FsTree → List Str
  | .node p k ok cs =>
    if ok then
      (if k = .file then [p] else []) ++ (if k = .dir then specFilesForest cs else [])
    else []
def specFilesForest : List FsTree → List Str
  | [] => []
  | t :: ts => specFiles t ++ specFilesForest ts
end

/-- The target list execute scans: expanded when recursive_search is set,
else the configured target list unchanged. -/
def collectTargets (dirs : Str → FsTree) (cfg : Config) : List Str :=
  if cfg.recursive_search then collect_files_recursively dirs cfg.target_files
  else cfg.target_files

/-- The query preparation at the top of execute. -/
def execQuery (cfg : Config) : Str :=
  if cfg.case_insensitive then lowerS cfg.query_str else cfg.query_str

/-- execute in main.rs. -/
def execute (dirs : Str → FsTree) (fs : Fs) (cfg : Config) : RunOut :=
  runFiles fs (execQuery cfg) cfg (collectTargets dirs cfg)

/-- Observable outcome of main: exit code, whether the usage text was printed,
the stderr message, and the run (none when no file was scanned). -/
structure RunResult where
  exitCode : Nat
  usagePrinted : Bool
  errMsg : Option Str
  run : Option RunOut
  deriving DecidableEq

/-- main in main.rs. -/
def mainModel (dirs : Str → FsTree) (fs : Fs) (args : List Str) : RunResult :=
  match Config.new args with
  | .error .helpRequested => ⟨0, true, none, none⟩
  | .error (.parseError m) => ⟨1, true, some m, none⟩
  | .ok cfg =>
    let r := execute dirs fs cfg
    match r.err with
    | some e => ⟨1, false, some e, some r⟩
    | none => ⟨0, false, none, some r⟩

/-- The six flag tokens that only set configuration switches. -/
def isFlagTok (a : Str) : Prop :=
  a = str "-i" ∨ a = str "-n" ∨ a = str "-v" ∨ a = str "-r" ∨ a = str "-f" ∨ a = str "-c"

instance (a : Str) : Decidable (isFlagTok a) := by
  unfold isFlagTok
  infer_instance

/-! ## Helper lemmas about the scanner -/

theorem lineMatched_invert (cfg : Config) (b : Bool) (q l : Str) :
    lineMatched { cfg with invert_match := b } q l = lineMatched cfg q l := rfl

theorem should_print_invert_true (cfg : Config) (m : Bool) :
    should_print { cfg with invert_match := true } m = !m := rfl

theorem should_print_invert_false (cfg : Config) (m : Bool) :
    should_print { cfg with invert_match := false } m = m := rfl

/-- Membership in the indices of one scan step. -/
theorem mem_mapfst_emit {c : Bool} {s : Nat} {l : Str} {rest : List (Nat × Str)} {i : Nat} :
    (i ∈ ((if c = true then [(s, l)] else []) ++ rest).map (fun p => p.1)) ↔
      ((c = true ∧ i = s) ∨ i ∈ rest.map (fun p => p.1)) := by
  cases c <;> simp

/-- Every emitted index lies in the window starting at the scan's start index. -/
theorem scan_idx_bounds (cfg : Config) (q : Str) :
    ∀ (lines : List Str) (s i : Nat),
      i ∈ ((scanLines cfg q s (lines.map Except.ok)).1).map (fun p => p.1) →
      s ≤ i ∧ i < s + lines.length := by
  intro lines
  induction lines with
  | nil => intro s i h; simp [scanLines] at h
  | cons l ls ih =>
    intro s i h
    simp only [List.map_cons, scanLines] at h
    rw [mem_mapfst_emit] at h
    rcases h with ⟨_, h⟩ | h
    · constructor
      · omega
      · simp only [List.length_cons]
        omega
    · have := ih (s + 1) i h
      simp only [List.length_cons]
      omega

/-- On the same readable lines, the two scans that differ only in invert_match
emit complementary index sets within the scanned window. -/
theorem scan_complement (cfg : Config) (q : Str) :
    ∀ (lines : List Str) (s i : Nat), s ≤ i → i < s + lines.length →
      (i ∈ ((scanLines { cfg with invert_match := true } q s (lines.map Except.ok)).1).map
          (fun p => p.1) ↔
        i ∉ ((scanLines { cfg with invert_match := false } q s (lines.map Except.ok)).1).map
          (fun p => p.1)) := by
  intro lines
  induction lines with
  | nil =>
    intro s i h1 h2
    simp only [List.length_nil] at h2
    omega
  | cons l ls ih =>
    intro s i h1 h2
    have hlen : i < s + 1 + ls.length := by
      simp only [List.length_cons] at h2; omega
    simp only [List.map_cons, scanLines]
    rw [mem_mapfst_emit, mem_mapfst_emit]
    simp only [should_print_invert_true, should_print_invert_false, lineMatched_invert]
    by_cases hi : i = s
    · subst hi
      have hT : i ∉ ((scanLines { cfg with invert_match := true } q (i + 1)
          (ls.map Except.ok)).1).map (fun p => p.1) := by
        intro hmem
        have := (scan_idx_bounds _ q ls (i + 1) i hmem).1
        omega
      have hF : i ∉ ((scanLines { cfg with invert_match := false } q (i + 1)
          (ls.map Except.ok)).1).map (fun p => p.1) := by
        intro hmem
        have := (scan_idx_bounds _ q ls (i + 1) i hmem).1
        omega
      by_cases hm : lineMatched cfg q l = true
      · constructor
        · intro h
          rcases h with h | h
          · rw [hm] at h
            exact absurd h.1 (by simp)
          · exact absurd h hT
        · intro h
          exact (h (Or.inl ⟨hm, rfl⟩)).elim
      · rw [Bool.not_eq_true] at hm
        constructor
        · intro _ hcon
          rcases hcon with hcon | hcon
          · rw [hm] at hcon
            exact absurd hcon.1 (by simp)
          · exact hF hcon
        · intro _
          exact Or.inl ⟨by simp [hm], rfl⟩
    · have hrec := ih (s + 1) i (by omega) hlen
      constructor
      · intro h
        rcases h with h | h
        · exact absurd h.2 hi
        · intro hcon
          rcases hcon with hcon | hcon
          · exact hi hcon.2
          · exact (hrec.mp h) hcon
      · intro h
        right
        refine hrec.mpr ?_
        intro hcon
        exact h (Or.inr hcon)

/-- C1: for every scanned line, the match decision computed by search_in_file
on the query prepared by execute equals substring containment, with both the
line and the query lowercased exactly when case_insensitive is set, and both
used verbatim otherwise. -/
theorem c1_match_decision (cfg : Config) (line : Str) :
    lineMatched cfg (execQuery cfg) line =
      (if cfg.case_insensitive then containsSub (lowerS line) (lowerS cfg.query_str)
       else containsSub line cfg.query_str) := by
  unfold lineMatched execQuery
  by_cases h : cfg.case_insensitive = true <;> simp [h]

/-- C2: for a fixed file content and query, the set of zero-based indices
emitted with invert_match set is exactly the complement, within the file's
line indices, of the set emitted with invert_match unset. -/
theorem c2_invert_complement (cfg : Config) (q : Str) (lines : List Str) :
    (∀ i, i < lines.length →
      (i ∈ emittedIdxs { cfg with invert_match := true } q lines ↔
        i ∉ emittedIdxs { cfg with invert_match := false } q lines))
    ∧ (∀ (b : Bool) (i : Nat),
        i ∈ emittedIdxs { cfg with invert_match := b } q lines → i < lines.length) := by
  constructor
  · intro i hi
    unfold emittedIdxs
    exact scan_complement cfg q lines 0 i (Nat.zero_le i) (by omega)
  · intro b i h
    have := scan_idx_bounds { cfg with invert_match := b } q lines 0 i h
    omega

theorem c2_invert_complement_witness :
    (0 ∈ emittedIdxs { (⟨str "a", [str "f"], false, false, false, false, false, false⟩ : Config) with
        invert_match := true } (str "a") [str "a", str "b"] ↔
      0 ∉ emittedIdxs { (⟨str "a", [str "f"], false, false, false, false, false, false⟩ : Config) with
        invert_match := false } (str "a") [str "a", str "b"]) :=
  (c2_invert_complement ⟨str "a", [str "f"], false, false, false, false, false, false⟩
    (str "a") [str "a", str "b"]).1 0 (by decide)

theorem containsSub_nil (s : Str) : containsSub s [] = true := by
  cases s <;> simp [containsSub, isPre]

theorem execQuery_nil (cfg : Config) (h : cfg.query_str = []) : execQuery cfg = [] := by
  unfold execQuery
  rw [h]
  by_cases hc : cfg.case_insensitive = true <;> simp [hc, lowerS]

/-- A scan whose predicate accepts every line emits every index in order. -/
theorem scan_all_lines (cfg : Config) (q : Str)
    (hall : ∀ l, should_print cfg (lineMatched cfg q l) = true) :
    ∀ (lines : List Str) (s : Nat),
      ((scanLines cfg q s (lines.map Except.ok)).1).map (fun p => p.1) =
        List.range' s lines.length := by
  intro lines
  induction lines with
  | nil => intro s; simp [scanLines, List.range']
  | cons l ls ih => intro s; simp [scanLines, hall l, ih, List.range']

/-- A scan whose predicate rejects every line emits nothing. -/
theorem scan_no_lines (cfg : Config) (q : Str)
    (hall : ∀ l, should_print cfg (lineMatched cfg q l) = false) :
    ∀ (lines : List Str) (s : Nat), (scanLines cfg q s (lines.map Except.ok)).1 = [] := by
  intro lines
  induction lines with
  | nil => intro s; simp [scanLines]
  | cons l ls ih => intro s; simp [scanLines, hall l, ih]

/-- C10: with an empty query every line matches, so without invert_match every
line index of the file is emitted and with invert_match none is. -/
theorem c10_empty_query (cfg : Config) (lines : List Str) (h : cfg.query_str = []) :
    emittedIdxs { cfg with invert_match := false } (execQuery cfg) lines =
      List.range lines.length
    ∧ emittedIdxs { cfg with invert_match := true } (execQuery cfg) lines = [] := by
  have hq : execQuery cfg = [] := execQuery_nil cfg h
  constructor
  · have hall : ∀ l, should_print { cfg with invert_match := false }
        (lineMatched { cfg with invert_match := false } (execQuery cfg) l) = true := by
      intro l
      rw [should_print_invert_false, lineMatched_invert, hq]
      unfold lineMatched
      by_cases hc : cfg.case_insensitive = true <;> simp [hc, containsSub_nil]
    unfold emittedIdxs
    rw [scan_all_lines _ _ hall lines 0, List.range_eq_range']
  · have hall : ∀ l, should_print { cfg with invert_match := true }
        (lineMatched { cfg with invert_match := true } (execQuery cfg) l) = false := by
      intro l
      rw [should_print_invert_true, lineMatched_invert, hq]
      unfold lineMatched
      by_cases hc : cfg.case_insensitive = true <;> simp [hc, containsSub_nil]
    unfold emittedIdxs
    rw [scan_no_lines _ _ hall lines 0]
    simp

theorem c10_empty_query_witness :
    emittedIdxs { (⟨[], [str "f"], false, false, false, false, false, false⟩ : Config) with
        invert_match := false }
      (execQuery ⟨[], [str "f"], false, false, false, false, false, false⟩) [str "x"] =
      List.range 1 :=
  (c10_empty_query ⟨[], [str "f"], false, false, false, false, false, false⟩ [str "x"] rfl).1

/-- C3: if opening or reading a target file fails, the run stops there: the
outcome of the whole loop is independent of every later target, the loop's
error is the failing file's error, and the opened files are exactly the
successful prefix plus the failing file. -/
theorem c3_abort_on_error (fs : Fs) (q : Str) (cfg : Config) (pre post : List Str)
    (f : Str) (e : Str) (hf : (search_in_file fs f q cfg).2 = some e) :
    runFiles fs q cfg (pre ++ f :: post) = runFiles fs q cfg (pre ++ [f])
    ∧ ((∀ g ∈ pre, (search_in_file fs g q cfg).2 = none) →
        (runFiles fs q cfg (pre ++ f :: post)).err = some e
        ∧ (runFiles fs q cfg (pre ++ f :: post)).opened = pre ++ [f]) := by
  induction pre with
  | nil =>
    constructor
    · simp [runFiles, hf]
    · intro _
      simp [runFiles, hf]
  | cons g gs ih =>
    have iha := ih.1
    have ihb := ih.2
    constructor
    · simp only [List.cons_append, runFiles, List.append_eq]
      cases hg : (search_in_file fs g q cfg).2 with
      | some e2 => rfl
      | none => rw [iha]
    · intro hpre
      have hg : (search_in_file fs g q cfg).2 = none :=
        hpre g (List.mem_cons_self g gs)
      have hrest : ∀ x ∈ gs, (search_in_file fs x q cfg).2 = none :=
        fun x hx => hpre x (List.mem_cons_of_mem g hx)
      obtain ⟨h1, h2⟩ := ihb hrest
      constructor
      · simp only [List.cons_append, runFiles, List.append_eq, hg]
        exact h1
      · simp only [List.cons_append, runFiles, List.append_eq, hg]
        rw [h2]

theorem c3_abort_on_error_witness :
    (runFiles
        (fun s => if s = str "bad" then Except.error (str "io")
          else Except.ok [Except.ok (str "x")])
        (str "x")
        ⟨str "x", [str "good"], false, false, false, false, false, false⟩
        ([str "good"] ++ (str "bad") :: [str "later"])).opened =
      [str "good"] ++ [str "bad"] :=
  ((c3_abort_on_error
      (fun s => if s = str "bad" then Except.error (str "io")
        else Except.ok [Except.ok (str "x")])
      (str "x")
      ⟨str "x", [str "good"], false, false, false, false, false, false⟩
      [str "good"] [str "later"] (str "bad") (str "io")
      (by decide)).2 (by decide)).2

/-- If a help token occurs among the flag tokens, the flag loop exits with the
help request, whatever earlier tokens set. -/
theorem parseFlags_help (rest : List Str) : ∀ (cfg : Config),
    (str "-h" ∈ rest ∨ str "--help" ∈ rest) →
    parseFlags cfg rest = .error .helpRequested := by
  induction rest with
  | nil => intro cfg h; simp at h
  | cons a as ih =>
    intro cfg h
    have step : a ≠ str "-h" → a ≠ str "--help" →
        (str "-h" ∈ as ∨ str "--help" ∈ as) := by
      intro hx hy
      rcases h with h | h <;> rw [List.mem_cons] at h
      · rcases h with h | h
        · exact absurd h.symm hx
        · exact Or.inl h
      · rcases h with h | h
        · exact absurd h.symm hy
        · exact Or.inr h
    simp only [parseFlags]
    split_ifs with h1 h2 h3 h4 h5 h6 h7
    · exact ih _ (step (by rw [h1]; decide) (by rw [h1]; decide))
    · exact ih _ (step (by rw [h2]; decide) (by rw [h2]; decide))
    · exact ih _ (step (by rw [h3]; decide) (by rw [h3]; decide))
    · exact ih _ (step (by rw [h4]; decide) (by rw [h4]; decide))
    · exact ih _ (step (by rw [h5]; decide) (by rw [h5]; decide))
    · exact ih _ (step (by rw [h6]; decide) (by rw [h6]; decide))
    · rfl
    · exact ih _ (step (fun hc => h7 (Or.inl hc)) (fun hc => h7 (Or.inr hc)))

/-- A token list consisting only of switch flags adds no target and raises no
help request: the loop succeeds with the targets unchanged. -/
theorem parseFlags_all_flags (rest : List Str) : ∀ (cfg : Config),
    (∀ a ∈ rest, isFlagTok a) →
    ∃ cfg2, parseFlags cfg rest = .ok cfg2 ∧ cfg2.target_files = cfg.target_files := by
  induction rest with
  | nil => intro cfg _; exact ⟨cfg, rfl, rfl⟩
  | cons a as ih =>
    intro cfg hall
    have ha : isFlagTok a := hall a (List.mem_cons_self a as)
    have hrest : ∀ x ∈ as, isFlagTok x := fun x hx => hall x (List.mem_cons_of_mem a hx)
    rcases ha with h | h | h | h | h | h <;> subst h
    · obtain ⟨cfg2, hok, htf⟩ := ih { cfg with case_insensitive := true } hrest
      exact ⟨cfg2, hok, htf⟩
    · obtain ⟨cfg2, hok, htf⟩ := ih { cfg with print_line_numbers := true } hrest
      exact ⟨cfg2, hok, htf⟩
    · obtain ⟨cfg2, hok, htf⟩ := ih { cfg with invert_match := true } hrest
      exact ⟨cfg2, hok, htf⟩
    · obtain ⟨cfg2, hok, htf⟩ := ih { cfg with recursive_search := true } hrest
      exact ⟨cfg2, hok, htf⟩
    · obtain ⟨cfg2, hok, htf⟩ := ih { cfg with print_filenames := true } hrest
      exact ⟨cfg2, hok, htf⟩
    · obtain ⟨cfg2, hok, htf⟩ := ih { cfg with colored_output := true } hrest
      exact ⟨cfg2, hok, htf⟩

/-- C7: fewer than two user-supplied arguments is one argument error, zero
targets after flag extraction is a distinct one; either way main prints the
message and the usage text, exits with status 1, and scans no file. -/
theorem c7_argument_errors (dirs : Str → FsTree) (fs : Fs) (args : List Str) :
    (args.length < 3 →
      mainModel dirs fs args = ⟨1, true, some (str "not enough arguments"), none⟩)
    ∧ (3 ≤ args.length → (∀ a ∈ args.drop 2, isFlagTok a) →
      mainModel dirs fs args = ⟨1, true, some (str "No files provided."), none⟩)
    ∧ str "not enough arguments" ≠ str "No files provided." := by
  refine ⟨?_, ?_, by decide⟩
  · intro h
    unfold mainModel Config.new
    rw [if_pos h]
  · intro h3 hall
    have hnew : Config.new args = .error (.parseError (str "No files provided.")) := by
      unfold Config.new
      rw [if_neg (by omega)]
      obtain ⟨cfg2, hok, htf⟩ := parseFlags_all_flags (args.drop 2)
        ⟨args.getD 1 [], [], false, false, false, false, false, false⟩ hall
      rw [hok]
      have hempty : cfg2.target_files = [] := by rw [htf]
      simp [hempty]
    unfold mainModel
    rw [hnew]

theorem c7_argument_errors_witness :
    mainModel (fun _ => FsTree.node [] FKind.file true []) (fun _ => Except.ok [])
        [str "p"] = ⟨1, true, some (str "not enough arguments"), none⟩
    ∧ mainModel (fun _ => FsTree.node [] FKind.file true []) (fun _ => Except.ok [])
        [str "p", str "q", str "-i"] = ⟨1, true, some (str "No files provided."), none⟩ :=
  ⟨(c7_argument_errors (fun _ => FsTree.node [] FKind.file true [])
      (fun _ => Except.ok []) [str "p"]).1 (by decide),
   (c7_argument_errors (fun _ => FsTree.node [] FKind.file true [])
      (fun _ => Except.ok []) [str "p", str "q", str "-i"]).2.1 (by decide) (by decide)⟩

/-- C8: whenever -h or --help occurs among the flag and target tokens, main
prints the usage text, exits with status 0, reports no error, and scans no
file, whatever else the invocation contains. -/
theorem c8_help_exit (dirs : Str → FsTree) (fs : Fs) (args : List Str)
    (h : str "-h" ∈ args.drop 2 ∨ str "--help" ∈ args.drop 2) :
    mainModel dirs fs args = ⟨0, true, none, none⟩ := by
  have hlen : 3 ≤ args.length := by
    have hne : args.drop 2 ≠ [] := by
      rcases h with h | h
      · exact List.ne_nil_of_mem h
      · exact List.ne_nil_of_mem h
    have hp := List.length_pos.mpr hne
    rw [List.length_drop] at hp
    omega
  unfold mainModel Config.new
  rw [if_neg (by omega), parseFlags_help _ _ h]

theorem c8_help_exit_witness :
    mainModel (fun _ => FsTree.node [] FKind.file true []) (fun _ => Except.ok [])
      [str "p", str "q", str "-h"] = ⟨0, true, none, none⟩ :=
  c8_help_exit (fun _ => FsTree.node [] FKind.file true []) (fun _ => Except.ok [])
    [str "p", str "q", str "-h"] (by decide)

/-- C4 counterexample: with both show_filenames and show_line_numbers the code
prints "fruits.txt: 1: apple", with a space after the filename's colon, not
the claimed "fruits.txt:1: apple". -/
theorem c4_counterexample :
    print_match 0 (str "apple") (str "fruits.txt")
        ⟨str "apple", [str "fruits.txt"], false, true, false, false, true, false⟩ =
      some (str "fruits.txt: 1: apple")
    ∧ str "fruits.txt: 1: apple" ≠ str "fruits.txt:1: apple" := by decide

/-- C4 (amended): the output prefix follows the claimed precedence with
1-based line numbers, except that with both flags the filename separator also
carries a space: "<file>: <line+1>: <text>". -/
theorem c4_output_format (line_idx : Nat) (line filename : Str) (cfg : Config) :
    print_match line_idx line filename cfg = (formatColored cfg line).map (fun text =>
      if cfg.print_filenames then
        (if cfg.print_line_numbers then
          filename ++ str ": " ++ natStr (line_idx + 1) ++ str ": " ++ text
         else filename ++ str ": " ++ text)
      else if cfg.print_line_numbers then natStr (line_idx + 1) ++ str ": " ++ text
      else text) := by
  unfold print_match
  cases hf : cfg.print_filenames <;> cases hn : cfg.print_line_numbers <;> simp [hf, hn]

theorem isPre_append (p s : Str) : isPre p (p ++ s) = true := by
  induction p with
  | nil => rfl
  | cons a as ih => simp [isPre, ih]

/-- The escaped query always parses back as the literal query. -/
theorem parseLitPat_escape (q : Str) : parseLitPat (rustRegexEscape q) = some q := by
  induction q with
  | nil => rfl
  | cons c cs ih =>
    by_cases h : metaChar c = true
    · simp [rustRegexEscape, h, parseLitPat, ih]
    · have hc : c ≠ '\\' := by
        intro hh
        rw [hh] at h
        exact h (by decide)
      simp only [rustRegexEscape, h, if_false, List.singleton_append]
      rw [parseLitPat.eq_def]
      simp [hc, h, ih]

/-- Compiling "(?i)" followed by the escaped query always succeeds and yields
the query as the literal to search for. -/
theorem regexNew_ci (q : Str) : regexNew (str "(?i)" ++ rustRegexEscape q) = some q := by
  unfold regexNew
  rw [if_pos (isPre_append (str "(?i)") (rustRegexEscape q))]
  have hdrop : (str "(?i)" ++ rustRegexEscape q).drop 4 = rustRegexEscape q := rfl
  rw [hdrop, parseLitPat_escape]

/-- C9: the formatter has no failure path: for every index, line, file path
and configuration the formatted output exists; in particular the regex built
from the escaped query always compiles, so the unwrap panic is unreachable. -/
theorem c9_formatter_total (cfg : Config) (line_idx : Nat) (line filename : Str) :
    ∃ out, print_match line_idx line filename cfg = some out := by
  have hfm : ∃ fm, formatColored cfg line = some fm := by
    unfold formatColored
    cases hc : cfg.colored_output
    · exact ⟨line, by simp⟩
    · cases hi : cfg.case_insensitive
      · exact ⟨rustReplace line cfg.query_str (M1 ++ cfg.query_str ++ M2), by simp⟩
      · exact ⟨flattenHl (hlSegsCI cfg.query_str line), by simp [regexNew_ci]⟩
  obtain ⟨fm, hfm⟩ := hfm
  unfold print_match
  rw [hfm]
  exact ⟨_, rfl⟩

mutual
/-- The file filter over the walk of one tree is the spec's depth-first list
of readable regular files. -/
theorem walkFiles_eq : ∀ (t : FsTree),
    ((walkEntries t).filterMap Except.toOption).filterMap
      (fun e => if e.2 = FKind.file then some e.1 else none) = specFiles t
  | .node p k ok cs => by
    rw [walkEntries, specFiles]
    cases ok
    · simp [Except.toOption]
    · cases k <;>
        simp [Except.toOption, List.filterMap_cons, walkForest_eq cs]
theorem walkForest_eq : ∀ (ts : List FsTree),
    ((walkForest ts).filterMap Except.toOption).filterMap
      (fun e => if e.2 = FKind.file then some e.1 else none) = specFilesForest ts
  | [] => by rw [walkForest, specFilesForest]; simp
  | t :: ts => by
    rw [walkForest, specFilesForest, List.filterMap_append, List.filterMap_append,
      walkFiles_eq t, walkForest_eq ts]
end

/-- C6: with recursive mode the collector yields, target by target in order
and without deduplication, exactly the readable regular-file descendants of
each target in depth-first order, skipping unreadable entries silently;
without recursive mode the target list is passed through unchanged. -/
theorem c6_path_collector (dirs : Str → FsTree) (targets : List Str) (cfg : Config) :
    collect_files_recursively dirs targets =
      targets.foldr (fun t acc => specFiles (dirs t) ++ acc) []
    ∧ (cfg.recursive_search = false → collectTargets dirs cfg = cfg.target_files) := by
  constructor
  · induction targets with
    | nil => rfl
    | cons p ps ih =>
      simp only [collect_files_recursively, List.foldr]
      rw [walkFiles_eq (dirs p), ih]
  · intro h
    simp [collectTargets, h]

theorem c6_path_collector_witness :
    collectTargets (fun _ => FsTree.node [] FKind.file true [])
      ⟨str "q", [str "a", str "b"], false, false, false, false, false, false⟩ =
      [str "a", str "b"] :=
  (c6_path_collector (fun _ => FsTree.node [] FKind.file true []) []
      ⟨str "q", [str "a", str "b"], false, false, false, false, false, false⟩).2 rfl

/-! ## Helper lemmas about highlighting and marker stripping -/

theorem head_ne_esc {c : Char} {cs : Str} (hs : esc ∉ c :: cs) : c ≠ esc := by
  intro hc
  apply hs
  rw [hc]
  exact List.mem_cons_self esc cs

theorem tail_not_esc {c : Char} {cs : Str} (hs : esc ∉ c :: cs) : esc ∉ cs :=
  fun hm => hs (List.mem_cons_of_mem c hm)

theorem strip_M1 (u : Str) : stripMarkers (M1 ++ u) = stripMarkers u := rfl

theorem strip_M2 (u : Str) : stripMarkers (M2 ++ u) = stripMarkers u := rfl

theorem strip_cons_ne (c : Char) (x : Str) (hc : c ≠ esc) :
    stripMarkers (c :: x) = c :: stripMarkers x := by
  rw [stripMarkers.eq_def]
  split
  · rename_i heq
    simp at heq
  · rename_i rest heq
    injection heq with h1 h2
    exact absurd h1 hc
  · rename_i rest heq
    injection heq with h1 h2
    exact absurd h1 hc
  · rename_i c2 cs2 hn1 hn2 heq
    injection heq with h1 h2
    rw [h1, h2]

theorem strip_append_escfree : ∀ (t u : Str), esc ∉ t →
    stripMarkers (t ++ u) = t ++ stripMarkers u := by
  intro t
  induction t with
  | nil => intro u _; rfl
  | cons c cs ih =>
    intro u ht
    rw [List.cons_append, strip_cons_ne c _ (head_ne_esc ht), ih u (tail_not_esc ht)]
    rfl

theorem strip_escfree_id (t : Str) (ht : esc ∉ t) : stripMarkers t = t := by
  have h := strip_append_escfree t [] ht
  simpa [stripMarkers] using h

/-- Stripping the rendered segments recovers the plain text when no segment
text contains the escape character. -/
theorem strip_flattenHl : ∀ (segs : List (Bool × Str)),
    (∀ seg ∈ segs, esc ∉ seg.2) → stripMarkers (flattenHl segs) = flattenPlain segs := by
  intro segs
  induction segs with
  | nil => intro _; rfl
  | cons seg rest ih =>
    intro h
    obtain ⟨b, t⟩ := seg
    have ht : esc ∉ t := h (b, t) (List.mem_cons_self _ _)
    have hrest : ∀ s ∈ rest, esc ∉ s.2 := fun s hs => h s (List.mem_cons_of_mem _ hs)
    cases b
    · have e1 : flattenHl ((false, t) :: rest) = t ++ flattenHl rest := by simp [flattenHl]
      have ep : flattenPlain ((false, t) :: rest) = t ++ flattenPlain rest := by
        simp [flattenPlain]
      rw [e1, ep, strip_append_escfree t _ ht, ih hrest]
    · have e2 : flattenHl ((true, t) :: rest) = M1 ++ (t ++ (M2 ++ flattenHl rest)) := by
        simp [flattenHl, List.append_assoc]
      have ep : flattenPlain ((true, t) :: rest) = t ++ flattenPlain rest := by
        simp [flattenPlain]
      rw [e2, ep, strip_M1, strip_append_escfree t _ ht, strip_M2, ih hrest]

theorem isPre_append_drop : ∀ (p s : Str), isPre p s = true → p ++ s.drop p.length = s := by
  intro p
  induction p with
  | nil => intro s _; simp
  | cons a as ih =>
    intro s hp
    cases s with
    | nil => simp [isPre] at hp
    | cons b bs =>
      simp only [isPre, Bool.and_eq_true, decide_eq_true_eq] at hp
      obtain ⟨rfl, h2⟩ := hp
      simp only [List.length_cons, List.drop_succ_cons, List.cons_append]
      rw [ih bs h2]

theorem mem_of_isPre {p s : Str} (h : isPre p s = true) : ∀ x ∈ p, x ∈ s := by
  intro x hx
  have hd := isPre_append_drop p s h
  rw [← hd]
  exact List.mem_append_left _ hx

theorem drop_pred_cons (pat : Str) (hpat : pat ≠ []) (c : Char) (cs : Str) :
    cs.drop (pat.length - 1) = (c :: cs).drop pat.length := by
  cases pat with
  | nil => exact absurd rfl hpat
  | cons a as => simp

/-- The replace of the case-sensitive highlight path renders exactly the
segment decomposition of the same scan. -/
theorem replaceGo_eq_flatten (pat : Str) :
    ∀ (f : Nat) (s : Str), s.length ≤ f →
      replaceGo pat (M1 ++ pat ++ M2) f s = flattenHl (hlSegsGo pat f s) := by
  intro f
  induction f with
  | zero =>
    intro s hs
    cases s with
    | nil => rfl
    | cons c cs => simp at hs
  | succ n ih =>
    intro s hs
    cases s with
    | nil => rfl
    | cons c cs =>
      have hcs : cs.length ≤ n := by simp only [List.length_cons] at hs; omega
      by_cases hp : isPre pat (c :: cs) = true
      · simp only [replaceGo, hlSegsGo]
        rw [if_pos hp, if_pos hp]
        have e2 : flattenHl ((true, pat) :: hlSegsGo pat n (cs.drop (pat.length - 1))) =
            (M1 ++ pat ++ M2) ++ flattenHl (hlSegsGo pat n (cs.drop (pat.length - 1))) := by
          simp [flattenHl]
        rw [e2, ih (cs.drop (pat.length - 1)) (by rw [List.length_drop]; omega)]
      · simp only [replaceGo, hlSegsGo]
        rw [if_neg hp, if_neg hp]
        have e1 : flattenHl ((false, [c]) :: hlSegsGo pat n cs) =
            [c] ++ flattenHl (hlSegsGo pat n cs) := by simp [flattenHl]
        rw [e1, ih cs hcs]
        rfl

/-- The texts of the case-sensitive segments stay inside the scanned line. -/
theorem hlSegsGo_escfree (pat : Str) : ∀ (f : Nat) (s : Str), esc ∉ s →
    ∀ seg ∈ hlSegsGo pat f s, esc ∉ seg.2 := by
  intro f
  induction f with
  | zero =>
    intro s hs seg hseg
    cases s with
    | nil => simp [hlSegsGo] at hseg
    | cons c cs => simp [hlSegsGo] at hseg
  | succ n ih =>
    intro s hs seg hseg
    cases s with
    | nil => simp [hlSegsGo] at hseg
    | cons c cs =>
      by_cases hp : isPre pat (c :: cs) = true
      · simp only [hlSegsGo] at hseg
        rw [if_pos hp] at hseg
        rcases List.mem_cons.mp hseg with h | h
        · subst h
          intro hm
          exact hs (mem_of_isPre hp esc hm)
        · exact ih (cs.drop (pat.length - 1))
            (fun hm => hs (List.mem_cons_of_mem c (List.drop_subset _ _ hm))) seg h
      · simp only [hlSegsGo] at hseg
        rw [if_neg hp] at hseg
        rcases List.mem_cons.mp hseg with h | h
        · subst h
          intro hm
          apply hs
          rw [List.mem_singleton] at hm
          rw [hm]
          exact List.mem_cons_self c cs
        · exact ih cs (fun hm => hs (List.mem_cons_of_mem c hm)) seg h

/-- The case-sensitive segment texts concatenate back to the line. -/
theorem flattenPlain_hlSegsGo (pat : Str) (hpat : pat ≠ []) :
    ∀ (f : Nat) (s : Str), s.length ≤ f → flattenPlain (hlSegsGo pat f s) = s := by
  intro f
  induction f with
  | zero =>
    intro s hs
    cases s with
    | nil => rfl
    | cons c cs => simp at hs
  | succ n ih =>
    intro s hs
    cases s with
    | nil => rfl
    | cons c cs =>
      have hcs : cs.length ≤ n := by simp only [List.length_cons] at hs; omega
      by_cases hp : isPre pat (c :: cs) = true
      · simp only [hlSegsGo]
        rw [if_pos hp]
        have e : flattenPlain ((true, pat) :: hlSegsGo pat n (cs.drop (pat.length - 1))) =
            pat ++ flattenPlain (hlSegsGo pat n (cs.drop (pat.length - 1))) := by
          simp [flattenPlain]
        rw [e, ih (cs.drop (pat.length - 1)) (by rw [List.length_drop]; omega)]
        rw [drop_pred_cons pat hpat c cs]
        exact isPre_append_drop pat (c :: cs) hp
      · simp only [hlSegsGo]
        rw [if_neg hp]
        have e : flattenPlain ((false, [c]) :: hlSegsGo pat n cs) =
            [c] ++ flattenPlain (hlSegsGo pat n cs) := by simp [flattenPlain]
        rw [e, ih cs hcs]
        rfl

/-- The case-insensitive segment texts concatenate back to the line: matched
spans are cut from the line itself, so the original casing is kept. -/
theorem flattenPlain_hlSegsCIGo (q : Str) (hq : q ≠ []) :
    ∀ (f : Nat) (s : Str), s.length ≤ f → flattenPlain (hlSegsCIGo q f s) = s := by
  intro f
  induction f with
  | zero =>
    intro s hs
    cases s with
    | nil => rfl
    | cons c cs => simp at hs
  | succ n ih =>
    intro s hs
    cases s with
    | nil => rfl
    | cons c cs =>
      have hcs : cs.length ≤ n := by simp only [List.length_cons] at hs; omega
      by_cases hp : isPre (lowerS q) (lowerS (c :: cs)) = true
      · simp only [hlSegsCIGo]
        rw [if_pos hp]
        have e : flattenPlain ((true, (c :: cs).take q.length) ::
              hlSegsCIGo q n (cs.drop (q.length - 1))) =
            (c :: cs).take q.length ++ flattenPlain (hlSegsCIGo q n (cs.drop (q.length - 1))) := by
          simp [flattenPlain]
        rw [e, ih (cs.drop (q.length - 1)) (by rw [List.length_drop]; omega)]
        rw [drop_pred_cons q hq c cs]
        exact List.take_append_drop q.length (c :: cs)
      · simp only [hlSegsCIGo]
        rw [if_neg hp]
        have e : flattenPlain ((false, [c]) :: hlSegsCIGo q n cs) =
            [c] ++ flattenPlain (hlSegsCIGo q n cs) := by simp [flattenPlain]
        rw [e, ih cs hcs]
        rfl

/-- The texts of the case-insensitive segments stay inside the scanned line. -/
theorem hlSegsCIGo_escfree (q : Str) : ∀ (f : Nat) (s : Str), esc ∉ s →
    ∀ seg ∈ hlSegsCIGo q f s, esc ∉ seg.2 := by
  intro f
  induction f with
  | zero =>
    intro s hs seg hseg
    cases s with
    | nil => simp [hlSegsCIGo] at hseg
    | cons c cs => simp [hlSegsCIGo] at hseg
  | succ n ih =>
    intro s hs seg hseg
    cases s with
    | nil => simp [hlSegsCIGo] at hseg
    | cons c cs =>
      by_cases hp : isPre (lowerS q) (lowerS (c :: cs)) = true
      · simp only [hlSegsCIGo] at hseg
        rw [if_pos hp] at hseg
        rcases List.mem_cons.mp hseg with h | h
        · subst h
          intro hm
          exact hs (List.take_subset _ _ hm)
        · exact ih (cs.drop (q.length - 1))
            (fun hm => hs (List.mem_cons_of_mem c (List.drop_subset _ _ hm))) seg h
      · simp only [hlSegsCIGo] at hseg
        rw [if_neg hp] at hseg
        rcases List.mem_cons.mp hseg with h | h
        · subst h
          intro hm
          apply hs
          rw [List.mem_singleton] at hm
          rw [hm]
          exact List.mem_cons_self c cs
        · exact ih cs (fun hm => hs (List.mem_cons_of_mem c hm)) seg h

theorem flattenPlain_interSegs : ∀ (s : Str), flattenPlain (interSegs s) = s := by
  intro s
  induction s with
  | nil => rfl
  | cons c cs ih => simp [interSegs, flattenPlain, ih]

theorem interSegs_escfree : ∀ (s : Str), esc ∉ s → ∀ seg ∈ interSegs s, esc ∉ seg.2 := by
  intro s
  induction s with
  | nil => intro _ seg hseg; simp [interSegs] at hseg
  | cons c cs ih =>
    intro hs seg hseg
    simp only [interSegs] at hseg
    rcases List.mem_cons.mp hseg with h | h
    · subst h
      intro hm
      apply hs
      rw [List.mem_singleton] at hm
      rw [hm]
      exact List.mem_cons_self c cs
    · rcases List.mem_cons.mp h with h2 | h2
      · subst h2
        intro hm
        simp at hm
      · exact ih (tail_not_esc hs) seg h2

theorem strip_repBlock (u : Str) : stripMarkers ((M1 ++ [] ++ M2) ++ u) = stripMarkers u := by
  have h1 : (M1 ++ [] ++ M2) ++ u = M1 ++ (M2 ++ u) := by simp
  rw [h1, strip_M1, strip_M2]

/-- The empty-query replacement highlights every boundary; stripping still
recovers the line. -/
theorem strip_interMark_empty : ∀ (line : Str), esc ∉ line →
    stripMarkers ((M1 ++ [] ++ M2) ++ interMark (M1 ++ [] ++ M2) line) = line := by
  intro line
  induction line with
  | nil =>
    intro _
    rw [strip_repBlock]
    rfl
  | cons c cs ih =>
    intro hs
    rw [strip_repBlock]
    simp only [interMark]
    rw [strip_cons_ne c _ (head_ne_esc hs), ih (tail_not_esc hs)]

/-- Stripping the case-sensitive highlight replacement recovers the line. -/
theorem strip_rustReplace (q line : Str) (hline : esc ∉ line) :
    stripMarkers (rustReplace line q (M1 ++ q ++ M2)) = line := by
  unfold rustReplace
  by_cases hq : q = []
  · subst hq
    rw [if_pos rfl]
    exact strip_interMark_empty line hline
  · rw [if_neg hq]
    rw [replaceGo_eq_flatten q line.length line (Nat.le_refl _)]
    rw [strip_flattenHl _ (hlSegsGo_escfree q line.length line hline)]
    exact flattenPlain_hlSegsGo q hq line.length line (Nat.le_refl _)

/-- Stripping the case-insensitive highlight rendering recovers the line. -/
theorem strip_hlCI (q line : Str) (hline : esc ∉ line) :
    stripMarkers (flattenHl (hlSegsCI q line)) = line := by
  unfold hlSegsCI
  by_cases hq : q = []
  · rw [if_pos hq]
    have hesc : ∀ seg ∈ ((true, ([] : Str)) :: interSegs line), esc ∉ seg.2 := by
      intro seg hseg
      rcases List.mem_cons.mp hseg with h | h
      · subst h
        intro hm
        simp at hm
      · exact interSegs_escfree line hline seg h
    rw [strip_flattenHl _ hesc]
    have e : flattenPlain ((true, ([] : Str)) :: interSegs line) =
        [] ++ flattenPlain (interSegs line) := by simp [flattenPlain]
    rw [e, flattenPlain_interSegs]
    rfl
  · rw [if_neg hq]
    rw [strip_flattenHl _ (hlSegsCIGo_escfree q line.length line hline)]
    exact flattenPlain_hlSegsCIGo q hq line.length line (Nat.le_refl _)

/-- C5 (amended): for every line free of the escape character, in every
configuration and for every query, stripping all highlight markers from the
formatted line reproduces the line exactly — in particular the
case-insensitive path wraps spans cut from the line itself, keeping their
original casing. -/
theorem c5_highlight_roundtrip (cfg : Config) (line out : Str)
    (hline : esc ∉ line) (hfmt : formatColored cfg line = some out) :
    stripMarkers out = line := by
  unfold formatColored at hfmt
  by_cases hc : cfg.colored_output = true
  · rw [if_pos hc] at hfmt
    by_cases hi : cfg.case_insensitive = true
    · rw [if_pos hi, regexNew_ci] at hfmt
      injection hfmt with h
      rw [← h]
      exact strip_hlCI cfg.query_str line hline
    · rw [if_neg hi] at hfmt
      injection hfmt with h
      rw [← h]
      exact strip_rustReplace cfg.query_str line hline
  · rw [if_neg hc] at hfmt
    injection hfmt with h
    rw [← h]
    exact strip_escfree_id line hline

theorem c5_highlight_roundtrip_witness :
    esc ∉ str "cAt"
    ∧ formatColored ⟨str "a", [str "f"], true, false, false, false, false, true⟩ (str "cAt") =
        some ['c', esc, '[', '3', '1', 'm', 'A', esc, '[', '0', 'm', 't']
    ∧ stripMarkers ['c', esc, '[', '3', '1', 'm', 'A', esc, '[', '0', 'm', 't'] = str "cAt" :=
  ⟨by decide, by decide,
   c5_highlight_roundtrip ⟨str "a", [str "f"], true, false, false, false, false, true⟩
     (str "cAt") ['c', esc, '[', '3', '1', 'm', 'A', esc, '[', '0', 'm', 't']
     (by decide) (by decide)⟩

/-- C5 counterexample: a line that itself contains the opening marker bytes is
not reproduced by stripping the markers from its formatted output, so the
round trip fails without the escape-free restriction. -/
theorem c5_counterexample :
    (formatColored ⟨str "x", [str "f"], false, false, false, false, false, true⟩
        [esc, '[', '3', '1', 'm', 'x']).map stripMarkers = some (str "x")
    ∧ str "x" ≠ [esc, '[', '3', '1', 'm', 'x'] := by decide
